import Mathlib

/-!
Verification of the candycorn kernel-module version patcher (src/main.rs).

The program reads an ELF kernel module into a byte buffer, decodes its
62-byte-named, 64-byte-record `__versions` section into a name-keyed map of
symbol-version records, and patches checksum bytes in place: merging the
checksums of a reference (source) module and/or overwriting the checksum of
the distinguished symbol module_layout with an explicit value.

The embedding below models bytes as natural numbers (each < 256 in real
buffers), byte buffers as lists, ELF section headers with their name already
resolved through the section-header string table (goblin does that
resolution), and Rust control flow explicitly:
  - Rust slice indexing becomes an Option-valued slice function (a failed
    bounds check, which panics in Rust, becomes none);
  - a function that can abort the process (panic or unwrap) returns
    RustResult, whose panic constructor stands for the abort;
  - HashMap becomes an association list whose insert overwrites the value
    of an existing key and appends a fresh key, and whose get finds the
    unique entry of a key.  Iteration order of HashMap is arbitrary; the
    association list order stands for one such order.
-/

set_option maxRecDepth 16384

namespace Candycorn

/-- A process-abort-or-value result: `panic` models Rust aborting the process
(panic / expect / unwrap failure), `ret a` a normal return of `a`. -/
inductive RustResult (α : Type) where
  | panic : RustResult α
  | ret : α → RustResult α
deriving DecidableEq

/-- An ELF section header, with its name already resolved through the
section-header string table (`kmod.shdr_strtab.get_at(sh.sh_name)`,
with `unwrap_or("")` folded into the stored name). -/
structure SectionHeader where
  sh_name : String
  sh_offset : Nat
  sh_size : Nat
deriving DecidableEq

/-- `find_section` (main.rs:30-40): scan all section headers in file order,
return the first whose resolved name equals `name` exactly. -/
def find_section (kmod : List SectionHeader) (name : String) :
    Option SectionHeader :=
  kmod.find? (fun sh => sh.sh_name == name)

/-- `str_from_u8` (main.rs:45-56): the slice of the input up to but not
including its first zero byte; the whole input when no zero byte occurs.
(The Rust then converts those bytes to a String with from_utf8_lossy; we keep
symbol names as byte lists.) -/
def str_from_u8 (utf8 : List Nat) : List Nat :=
  utf8.takeWhile (fun b => b != 0)

/-- `SymVersion` (main.rs:58-62): one decoded version record, a copy of the
crc and the absolute offset of the record start in the backing buffer. -/
structure SymVersion where
  crc : Nat
  offset : Nat
deriving DecidableEq

/-- A symbol name, as the bytes before the first zero of the name field. -/
abbrev Name := List Nat

/-- The decoded version table: the entry list of the Rust HashMap. -/
abbrev VersionTable := List (Name × SymVersion)

/-- `HashMap::get` on the entry list: value of the entry whose key matches. -/
def hm_get (m : VersionTable) (k : Name) : Option SymVersion :=
  (m.find? (fun p => p.1 == k)).map Prod.snd

/-- `HashMap::insert` on the entry list: overwrite the value at an existing
key, append a fresh key. -/
def hm_insert (m : VersionTable) (k : Name) (v : SymVersion) : VersionTable :=
  if m.any (fun p => p.1 == k) then
    m.map (fun p => if p.1 == k then (k, v) else p)
  else
    m ++ [(k, v)]

/-- Rust `u64::from_le_bytes`: little-endian value of a byte list. -/
def u64_from_le_bytes (bs : List Nat) : Nat :=
  bs.foldr (fun b acc => b + 256 * acc) 0

/-- Rust `u64::to_le_bytes`: the 8 little-endian bytes of `n` (mod 2^64). -/
def u64_to_le_bytes (n : Nat) : List Nat :=
  (List.range 8).map (fun i => n / 256 ^ i % 256)

/-- Rust slice `l[a..b]`: `none` models the bounds-check panic. -/
def rsSlice (l : List Nat) (a b : Nat) : Option (List Nat) :=
  if a ≤ b ∧ b ≤ l.length then some ((l.drop a).take (b - a)) else none

/-- The bytes `buf[off .. off+n]` read without a bounds check (short or empty
when the range leaves the buffer). -/
def readBytes (buf : List Nat) (off n : Nat) : List Nat :=
  (buf.drop off).take n

/-- The loop body of `get_versions` (main.rs:90-105) iterated `n` times from
`start_idx`: read the 56-byte name field and the 8 crc bytes of each entry,
insert the decoded record, advance by 64.  A failed bounds check panics. -/
def readEntries (mod_data : List Nat) :
    Nat → Nat → VersionTable → RustResult VersionTable
  | 0, _, versions => .ret versions
  | n + 1, start_idx, versions =>
    match rsSlice mod_data (start_idx + 8) (start_idx + 64),
          rsSlice mod_data start_idx (start_idx + 8) with
    | some ver_info_name, some crc_bytes =>
      readEntries mod_data n (start_idx + 64)
        (hm_insert versions (str_from_u8 ver_info_name)
          { crc := u64_from_le_bytes crc_bytes, offset := start_idx })
    | _, _ => .panic

/-- `get_versions` (main.rs:66-107): find the `__versions` section (absent:
return None), reject a section size that is not a multiple of the 64-byte
record size (return None), then decode all entries. -/
def get_versions (info : List SectionHeader) (mod_data : List Nat) :
    RustResult (Option VersionTable) :=
  match find_section info "__versions" with
  | none => .ret none
  | some vers_sh =>
    let entries := vers_sh.sh_size / 64
    if entries * 64 ≠ vers_sh.sh_size then .ret none
    else
      match readEntries mod_data entries vers_sh.sh_offset [] with
      | .panic => .panic
      | .ret versions => .ret (some versions)

/-- Rust `Vec::splice(off..off+repl.len(), repl)` with a same-length
replacement: overwrite `repl.length` bytes in place at `off`; `none` models
the panic on a range that leaves the buffer. -/
def splice (buf : List Nat) (off : Nat) (repl : List Nat) :
    Option (List Nat) :=
  if off + repl.length ≤ buf.length then
    some (buf.take off ++ repl ++ buf.drop (off + repl.length))
  else none

/-- The source-merge loop of main (main.rs:175-186), iterating the target
table entries in some order: a symbol found in the source table has the 8
bytes at its target offset overwritten with the source crc, little-endian;
a symbol absent from the source is skipped.  (The Rust iterates the HashMap
keys and looks each key up again; the keys of a HashMap are unique, so the
pair iterated here carries the same record that lookup returns.) -/
def patch_with_source (s_versions : VersionTable) :
    List (Name × SymVersion) → List Nat → RustResult (List Nat)
  | [], t_buffer => .ret t_buffer
  | (name, t_ver) :: rest, t_buffer =>
    match hm_get s_versions name with
    | some s_ver =>
      match splice t_buffer t_ver.offset (u64_to_le_bytes s_ver.crc) with
      | some buf2 => patch_with_source s_versions rest buf2
      | none => .panic
    | none => patch_with_source s_versions rest t_buffer

/-- The ASCII bytes of the distinguished symbol name "module_layout". -/
def module_layout : Name :=
  [109, 111, 100, 117, 108, 101, 95, 108, 97, 121, 111, 117, 116]

/-- The explicit-override step of main (main.rs:192-200): look module_layout
up in the target table (`.expect` panics when absent) and overwrite the 8
bytes at its offset with the override value, little-endian. -/
def apply_layout_override (t_versions : VersionTable) (v : Nat)
    (t_buffer : List Nat) : RustResult (List Nat) :=
  match hm_get t_versions module_layout with
  | none => .panic
  | some t_module_layout =>
    match splice t_buffer t_module_layout.offset (u64_to_le_bytes v) with
    | some buf2 => .ret buf2
    | none => .panic

/-- The whole patch phase of main (main.rs:154-200) on a decoded target
table: the source merge when a source table is present, then the explicit
module_layout override when an override value is present. -/
def apply_patch (t_versions : VersionTable) (t_buffer : List Nat)
    (s_versions : Option VersionTable) (mlv : Option Nat) :
    RustResult (List Nat) :=
  match (match s_versions with
         | some s => patch_with_source s t_versions t_buffer
         | none => .ret t_buffer) with
  | .panic => .panic
  | .ret buf1 =>
    match mlv with
    | none => .ret buf1
    | some v => apply_layout_override t_versions v buf1

/-- The observable end state of one run of main. -/
inductive MainOutcome where
  | warnNoVersions : MainOutcome
  | panicAbort : MainOutcome
  | exitFailure : MainOutcome
  | wrote : List Nat → MainOutcome
deriving DecidableEq

/-- `main` (main.rs:109-209) after the target file has been read and its ELF
metadata parsed: `t_shs`/`t_buffer` the target's section headers and bytes,
`src` the source module's section headers and bytes when `-s` was given,
`mlv` the `-m` override value when given.
  - no `__versions` section in the target: warn and return success, no
    output written (main.rs:134-143);
  - `get_versions` on the target `.unwrap()`ed: None panics (main.rs:146);
  - a supplied source is decoded; None exits with code 1 (main.rs:170-173);
  - the merge loop, then the override, then the buffer is written out. -/
def run_main (t_shs : List SectionHeader) (t_buffer : List Nat)
    (src : Option (List SectionHeader × List Nat)) (mlv : Option Nat) :
    MainOutcome :=
  match find_section t_shs "__versions" with
  | none => .warnNoVersions
  | some _ =>
    match get_versions t_shs t_buffer with
    | .panic => .panicAbort
    | .ret none => .panicAbort
    | .ret (some t_versions) =>
      match (match src with
             | none => .ret (some t_buffer)
             | some (s_shs, s_data) =>
               match get_versions s_shs s_data with
               | .panic => .panic
               | .ret none => .ret none
               | .ret (some s_versions) =>
                 match patch_with_source s_versions t_versions t_buffer with
                 | .panic => .panic
                 | .ret b => .ret (some b) : RustResult (Option (List Nat))) with
      | .panic => .panicAbort
      | .ret none => .exitFailure
      | .ret (some buf1) =>
        match mlv with
        | none => .wrote buf1
        | some v =>
          match apply_layout_override t_versions v buf1 with
          | .panic => .panicAbort
          | .ret buf2 => .wrote buf2

/-- The number of positions at which two equal-length buffers differ. -/
def countDiff (a b : List Nat) : Nat :=
  (a.zip b).countP (fun p => p.1 != p.2)

/-- The offsets whose 8-byte checksum ranges a patch run writes: the offsets
of the target entries found in the source table, and module_layout's offset
when an override value is present. -/
def patchedOffsets (t_versions : VersionTable)
    (s_versions : Option VersionTable) (mlv : Option Nat) : List Nat :=
  (match s_versions with
   | some s =>
     (t_versions.filter (fun e => (hm_get s e.1).isSome)).map
       (fun e => e.2.offset)
   | none => []) ++
  (match mlv with
   | none => []
   | some _ =>
     match hm_get t_versions module_layout with
     | some ml => [ml.offset]
     | none => [])

/-- The mathematical content of one decoded entry at absolute offset `off`:
name = zero-terminated prefix of bytes [off+8, off+64), crc = little-endian
value of bytes [off, off+8), byte_offset = off. -/
def specEntry (data : List Nat) (off : Nat) : Name × SymVersion :=
  (str_from_u8 (readBytes data (off + 8) 56),
   { crc := u64_from_le_bytes (readBytes data off 8), offset := off })

/-- The `n` consecutive decoded entries starting at `off`, 64 bytes apart. -/
def specEntries (data : List Nat) : Nat → Nat → List (Name × SymVersion)
  | _, 0 => []
  | off, n + 1 => specEntry data off :: specEntries data (off + 64) n

/-- Folding `hm_insert` over a list of entries, as `readEntries` does. -/
def insertAll (m : VersionTable) (l : List (Name × SymVersion)) :
    VersionTable :=
  l.foldl (fun acc p => hm_insert acc p.1 p.2) m

/-- All 8-byte checksum ranges of the listed entries are pairwise disjoint
(decoded tables satisfy this: distinct records are 64 bytes apart). -/
def DisjointRanges (l : List (Name × SymVersion)) : Prop :=
  l.Pairwise (fun a b =>
    a.2.offset + 8 ≤ b.2.offset ∨ b.2.offset + 8 ≤ a.2.offset)

/-- All 8-byte checksum ranges of the listed entries lie inside a buffer of
length `len` (decoded tables satisfy this for their backing buffer). -/
def InBounds (l : List (Name × SymVersion)) (len : Nat) : Prop :=
  ∀ e ∈ l, e.2.offset + 8 ≤ len

/-! ### Byte-range lemmas -/

theorem length_u64_to_le_bytes (n : Nat) : (u64_to_le_bytes n).length = 8 := by
  simp [u64_to_le_bytes]

theorem readBytes_getElem? (buf : List Nat) (off n j : Nat) :
    (readBytes buf off n)[j]? = if j < n then buf[off + j]? else none := by
  simp [readBytes, List.getElem?_take, List.getElem?_drop]

theorem splice_some {buf repl : List Nat} {off : Nat}
    (h : off + repl.length ≤ buf.length) :
    splice buf off repl =
      some (buf.take off ++ repl ++ buf.drop (off + repl.length)) := by
  simp [splice, h]

theorem splice_bound {buf repl out : List Nat} {off : Nat}
    (h : splice buf off repl = some out) :
    off + repl.length ≤ buf.length := by
  unfold splice at h
  split at h
  · assumption
  · exact absurd h (by simp)

theorem splice_length {buf repl out : List Nat} {off : Nat}
    (h : splice buf off repl = some out) : out.length = buf.length := by
  have hb := splice_bound h
  rw [splice_some hb] at h
  cases h
  simp [List.length_take, List.length_drop]
  omega

theorem splice_getElem? {buf repl out : List Nat} {off : Nat}
    (h : splice buf off repl = some out) (i : Nat) :
    out[i]? = if off ≤ i ∧ i < off + repl.length then repl[i - off]?
              else buf[i]? := by
  have hb := splice_bound h
  rw [splice_some hb] at h
  cases h
  have hto : (buf.take off).length = off := by
    simp [List.length_take]; omega
  rw [List.append_assoc, List.getElem?_append, hto]
  by_cases hi : i < off
  · rw [if_pos hi, List.getElem?_take, if_pos hi, if_neg (by omega)]
  · rw [if_neg hi, List.getElem?_append]
    by_cases hi2 : i - off < repl.length
    · rw [if_pos hi2, if_pos ⟨by omega, by omega⟩]
    · rw [if_neg hi2, if_neg (by omega), List.getElem?_drop]
      congr 1
      omega

theorem splice_frame {buf repl out : List Nat} {off : Nat}
    (h : splice buf off repl = some out) (i : Nat)
    (hout : i < off ∨ off + repl.length ≤ i) : out[i]? = buf[i]? := by
  rw [splice_getElem? h i, if_neg (by omega)]

theorem splice_read {buf repl out : List Nat} {off : Nat}
    (h : splice buf off repl = some out) :
    readBytes out off repl.length = repl := by
  apply List.ext_getElem?
  intro j
  rw [readBytes_getElem?]
  by_cases hj : j < repl.length
  · rw [if_pos hj, splice_getElem? h, if_pos ⟨by omega, by omega⟩]
    congr 1
    omega
  · rw [if_neg hj, eq_comm]
    exact List.getElem?_eq_none (by omega)

theorem readBytes_congr {a b : List Nat} {off n : Nat}
    (h : ∀ j, j < n → a[off + j]? = b[off + j]?) :
    readBytes a off n = readBytes b off n := by
  apply List.ext_getElem?
  intro j
  rw [readBytes_getElem?, readBytes_getElem?]
  by_cases hj : j < n
  · rw [if_pos hj, if_pos hj, h j hj]
  · rw [if_neg hj, if_neg hj]

/-! ### Byte-diff counting -/

theorem countDiff_self (a : List Nat) : countDiff a a = 0 := by
  induction a with
  | nil => rfl
  | cons x t ih =>
    simpa [countDiff, List.countP_cons] using ih

theorem countDiff_append {a₁ b₁ a₂ b₂ : List Nat}
    (h : a₁.length = b₁.length) :
    countDiff (a₁ ++ a₂) (b₁ ++ b₂) = countDiff a₁ b₁ + countDiff a₂ b₂ := by
  simp [countDiff, List.zip_append h, List.countP_append]

theorem countDiff_le_length (a b : List Nat) :
    countDiff a b ≤ (a.zip b).length := by
  unfold countDiff
  exact List.countP_le_length _

theorem ite_bne_eq (x y : Nat) :
    (if (x != y) = true then 1 else 0) = if x = y then 0 else 1 := by
  by_cases h : x = y <;> simp [h]

theorem countDiff_triangle (a b c : List Nat) (hab : a.length = b.length)
    (hbc : b.length = c.length) :
    countDiff a c ≤ countDiff a b + countDiff b c := by
  induction a generalizing b c with
  | nil =>
    cases b <;> cases c <;> simp_all [countDiff]
  | cons x a ih =>
    cases b with
    | nil => simp at hab
    | cons y b =>
      cases c with
      | nil => simp at hbc
      | cons z c =>
        have hrec := ih b c (by simpa using hab) (by simpa using hbc)
        unfold countDiff at hrec ⊢
        simp only [List.zip_cons_cons, List.countP_cons]
        rw [ite_bne_eq, ite_bne_eq, ite_bne_eq]
        split_ifs <;> omega

theorem countDiff_splice {buf repl out : List Nat} {off : Nat}
    (h : splice buf off repl = some out) :
    countDiff buf out ≤ repl.length := by
  have hb := splice_bound h
  rw [splice_some hb] at h
  cases h
  have hbuf : buf = buf.take off ++
      (readBytes buf off repl.length ++ buf.drop (off + repl.length)) := by
    conv_lhs => rw [← List.take_append_drop off buf]
    congr 1
    rw [readBytes, ← List.drop_drop]
    exact (List.take_append_drop repl.length (buf.drop off)).symm
  have hmidlen : (readBytes buf off repl.length).length = repl.length := by
    simp [readBytes, List.length_take, List.length_drop]
    omega
  calc countDiff buf (buf.take off ++ repl ++ buf.drop (off + repl.length))
      = countDiff (buf.take off ++
          (readBytes buf off repl.length ++ buf.drop (off + repl.length)))
          (buf.take off ++ (repl ++ buf.drop (off + repl.length))) := by
        rw [← hbuf, List.append_assoc]
    _ = countDiff (buf.take off) (buf.take off) +
        (countDiff (readBytes buf off repl.length) repl +
         countDiff (buf.drop (off + repl.length))
           (buf.drop (off + repl.length))) := by
        rw [countDiff_append rfl, countDiff_append hmidlen]
    _ ≤ repl.length := by
        rw [countDiff_self, countDiff_self]
        have := countDiff_le_length (readBytes buf off repl.length) repl
        simp [List.length_zip, hmidlen] at this
        omega

/-! ### HashMap model lemmas -/

theorem hm_get_mem {m : VersionTable} {k : Name} {v : SymVersion}
    (h : hm_get m k = some v) : (k, v) ∈ m := by
  unfold hm_get at h
  cases hf : m.find? (fun p => p.1 == k) with
  | none => rw [hf] at h; cases h
  | some p =>
    rw [hf] at h
    cases h
    have hk : p.1 = k := by simpa using List.find?_some hf
    have hm := List.mem_of_find?_eq_some hf
    rwa [← hk]

theorem any_key_insert (m : VersionTable) (k : Name) (v : SymVersion)
    (k' : Name) :
    ((hm_insert m k v).any fun p => p.1 == k') =
      (m.any (fun p => p.1 == k') || k == k') := by
  unfold hm_insert
  split
  · next hany =>
    rw [Bool.eq_iff_iff]
    simp only [List.any_map, List.any_eq_true, Function.comp, Bool.or_eq_true,
      beq_iff_eq] at hany ⊢
    constructor
    · rintro ⟨q, hq, hq'⟩
      by_cases hqk : q.1 = k
      · rw [if_pos (by simpa using hqk)] at hq'
        exact Or.inr hq'
      · rw [if_neg (by simpa using hqk)] at hq'
        exact Or.inl ⟨q, hq, hq'⟩
    · obtain ⟨q0, hq0, hq0'⟩ := hany
      rintro (⟨q, hq, hq'⟩ | hkk)
      · by_cases hqk : q.1 = k
        · refine ⟨q0, hq0, ?_⟩
          rw [if_pos hq0']
          show k = k'
          rw [← hqk, hq']
        · refine ⟨q, hq, ?_⟩
          rw [if_neg hqk]
          exact hq'
      · refine ⟨q0, hq0, ?_⟩
        rw [if_pos hq0']
        exact hkk
  · rw [List.any_append]
    simp

theorem hm_get_insert_self (m : VersionTable) (k : Name) (v : SymVersion) :
    hm_get (hm_insert m k v) k = some v := by
  induction m with
  | nil => simp [hm_get, hm_insert]
  | cons p m ih =>
    by_cases hp : p.1 = k
    · have : hm_insert (p :: m) k v =
          (k, v) :: m.map (fun q => if q.1 == k then (k, v) else q) := by
        unfold hm_insert
        rw [if_pos (by simp [hp]), List.map_cons, if_pos (by simpa using hp)]
      rw [this]
      simp [hm_get]
    · unfold hm_insert at ih ⊢
      rw [show ((p :: m).any fun q => q.1 == k) = (m.any fun q => q.1 == k) by
        simp [List.any_cons, hp]]
      split
      · next hany =>
        rw [hany] at ih
        simp only [if_true] at ih
        rw [List.map_cons, if_neg (by simpa using hp)]
        unfold hm_get at ih ⊢
        rw [List.find?_cons_of_neg _ (by simpa using hp)]
        exact ih
      · next hany =>
        rw [if_neg hany] at ih
        rw [List.cons_append]
        unfold hm_get at ih ⊢
        rw [List.find?_cons_of_neg _ (by simpa using hp)]
        exact ih

theorem hm_get_map_replace_ne (m : VersionTable) (k : Name) (v : SymVersion)
    {k' : Name} (h : k ≠ k') :
    hm_get (m.map fun q => if q.1 == k then (k, v) else q) k' = hm_get m k' := by
  induction m with
  | nil => rfl
  | cons p m ih =>
    rw [List.map_cons]
    by_cases hpk : p.1 = k
    · rw [if_pos (by simpa using hpk)]
      unfold hm_get
      rw [List.find?_cons_of_neg _ (by simpa using h),
        List.find?_cons_of_neg _ (by simp [hpk]; exact fun hh => h hh)]
      exact ih
    · rw [if_neg (by simpa using hpk)]
      by_cases hpk' : p.1 = k'
      · unfold hm_get
        rw [List.find?_cons_of_pos _ (by simpa using hpk'),
          List.find?_cons_of_pos _ (by simpa using hpk')]
      · unfold hm_get
        rw [List.find?_cons_of_neg _ (by simpa using hpk'),
          List.find?_cons_of_neg _ (by simpa using hpk')]
        exact ih

theorem hm_get_insert_ne (m : VersionTable) (k : Name) (v : SymVersion)
    {k' : Name} (h : k ≠ k') :
    hm_get (hm_insert m k v) k' = hm_get m k' := by
  unfold hm_insert
  split
  · exact hm_get_map_replace_ne m k v h
  · unfold hm_get
    rw [List.find?_append]
    rw [show ([(k, v)].find? fun p => p.1 == k') = none by
      rw [List.find?_cons_of_neg _ (by simpa using h)]
      rfl]
    rw [Option.or_none]

theorem mem_hm_insert {e : Name × SymVersion} {m : VersionTable} {k : Name}
    {v : SymVersion} (h : e ∈ hm_insert m k v) : e ∈ m ∨ e = (k, v) := by
  unfold hm_insert at h
  split at h
  · obtain ⟨q, hq, hfq⟩ := List.mem_map.mp h
    by_cases hqk : q.1 = k
    · rw [if_pos (by simpa using hqk)] at hfq
      exact Or.inr hfq.symm
    · rw [if_neg (by simpa using hqk)] at hfq
      exact Or.inl (hfq ▸ hq)
  · rcases List.mem_append.mp h with h | h
    · exact Or.inl h
    · exact Or.inr (by simpa using h)

theorem length_hm_insert_le (m : VersionTable) (k : Name) (v : SymVersion) :
    (hm_insert m k v).length ≤ m.length + 1 := by
  unfold hm_insert
  split
  · simp
  · simp

theorem length_hm_insert_fresh {m : VersionTable} {k : Name} (v : SymVersion)
    (h : (m.any fun p => p.1 == k) = false) :
    (hm_insert m k v).length = m.length + 1 := by
  unfold hm_insert
  rw [if_neg (by simp [h])]
  simp

/-! ### insertAll lemmas -/

/-- The value of the last entry of `l` carrying key `k`, if any. -/
def lookupLast (l : List (Name × SymVersion)) (k : Name) : Option SymVersion :=
  (l.reverse.find? (fun p => p.1 == k)).map Prod.snd

theorem insertAll_cons (m : VersionTable) (p : Name × SymVersion)
    (l : List (Name × SymVersion)) :
    insertAll m (p :: l) = insertAll (hm_insert m p.1 p.2) l := rfl

theorem hm_get_insertAll (l : List (Name × SymVersion)) (m : VersionTable)
    (k : Name) :
    hm_get (insertAll m l) k = (lookupLast l k).or (hm_get m k) := by
  induction l generalizing m with
  | nil => simp [insertAll, lookupLast]
  | cons p l ih =>
    rw [insertAll_cons, ih, lookupLast, lookupLast, List.reverse_cons,
      List.find?_append]
    cases hf : l.reverse.find? (fun q => q.1 == k) with
    | some q => simp
    | none =>
      simp only [Option.map_none, Option.none_or]
      by_cases hpk : p.1 = k
      · rw [List.find?_cons_of_pos _ (by simpa using hpk)]
        simp only [Option.map_some', Option.or_some, Option.map_none',
          Option.none_or]
        rw [← hpk, hm_get_insert_self]
      · rw [List.find?_cons_of_neg _ (by simpa using hpk)]
        simp only [List.find?_nil, Option.map_none, Option.none_or]
        exact hm_get_insert_ne m p.1 p.2 hpk

theorem hm_get_insertAll_nil (l : List (Name × SymVersion)) (k : Name) :
    hm_get (insertAll [] l) k = lookupLast l k := by
  rw [hm_get_insertAll]
  simp [hm_get]

theorem mem_insertAll {e : Name × SymVersion} (l : List (Name × SymVersion))
    (m : VersionTable) (h : e ∈ insertAll m l) : e ∈ m ∨ e ∈ l := by
  induction l generalizing m with
  | nil => exact Or.inl h
  | cons p l ih =>
    rw [insertAll_cons] at h
    rcases ih _ h with h' | h'
    · rcases mem_hm_insert h' with h'' | h''
      · exact Or.inl h''
      · exact Or.inr (by simp [h''])
    · exact Or.inr (List.mem_cons_of_mem _ h')

theorem length_insertAll_le (l : List (Name × SymVersion))
    (m : VersionTable) : (insertAll m l).length ≤ m.length + l.length := by
  induction l generalizing m with
  | nil => simp [insertAll]
  | cons p l ih =>
    rw [insertAll_cons]
    calc (insertAll (hm_insert m p.1 p.2) l).length
        ≤ (hm_insert m p.1 p.2).length + l.length := ih _
      _ ≤ m.length + (p :: l).length := by
          have := length_hm_insert_le m p.1 p.2
          simp only [List.length_cons]
          omega

theorem length_insertAll_fresh (l : List (Name × SymVersion)) :
    ∀ (m : VersionTable), (l.map Prod.fst).Nodup →
    (∀ p ∈ l, (m.any fun q => q.1 == p.1) = false) →
    (insertAll m l).length = m.length + l.length := by
  induction l with
  | nil => intro m _ _; simp [insertAll]
  | cons p l ih =>
    intro m hnd hfresh
    have hnd' : p.1 ∉ l.map Prod.fst ∧ (l.map Prod.fst).Nodup := by
      rw [List.map_cons, List.nodup_cons] at hnd
      exact hnd
    rw [insertAll_cons, ih (hm_insert m p.1 p.2) hnd'.2 ?_]
    · rw [length_hm_insert_fresh _ (hfresh p (by simp))]
      simp only [List.length_cons]
      omega
    · intro p' hp'
      rw [any_key_insert]
      have h1 : (m.any fun q => q.1 == p'.1) = false :=
        hfresh p' (List.mem_cons_of_mem _ hp')
      have h2 : p.1 ≠ p'.1 := by
        intro hcontra
        exact hnd'.1 (hcontra ▸ List.mem_map_of_mem Prod.fst hp')
      simp [h1, h2]

/-! ### Decoded-entry (specEntries) lemmas -/

theorem specEntries_length (data : List Nat) (off n : Nat) :
    (specEntries data off n).length = n := by
  induction n generalizing off with
  | zero => rfl
  | succ n ih => simp [specEntries, ih]

theorem mem_specEntries {e : Name × SymVersion} {data : List Nat}
    {off n : Nat} (h : e ∈ specEntries data off n) :
    ∃ j, j < n ∧ e = specEntry data (off + 64 * j) := by
  induction n generalizing off with
  | zero => cases h
  | succ n ih =>
    rcases List.mem_cons.mp h with h' | h'
    · exact ⟨0, by omega, by simpa using h'⟩
    · obtain ⟨j, hj, hje⟩ := ih h'
      exact ⟨j + 1, by omega, by rw [hje]; congr 1; omega⟩

theorem specEntry_offset (data : List Nat) (off : Nat) :
    (specEntry data off).2.offset = off := rfl

theorem specEntries_pairwise_offsets (data : List Nat) (off n : Nat) :
    (specEntries data off n).Pairwise
      (fun a b => a.2.offset + 64 ≤ b.2.offset) := by
  induction n generalizing off with
  | zero => exact List.Pairwise.nil
  | succ n ih =>
    rw [specEntries]
    refine List.pairwise_cons.mpr ⟨?_, ih (off + 64)⟩
    intro e he
    obtain ⟨j, _, hje⟩ := mem_specEntries he
    rw [hje, specEntry_offset, specEntry_offset]
    omega

theorem specEntries_disjoint (data : List Nat) (off n : Nat) :
    DisjointRanges (specEntries data off n) :=
  (specEntries_pairwise_offsets data off n).imp (fun h => Or.inl (by omega))

theorem specEntries_inBounds (data : List Nat) (off n : Nat)
    (h : off + 64 * n ≤ data.length) :
    InBounds (specEntries data off n) data.length := by
  intro e he
  obtain ⟨j, hj, hje⟩ := mem_specEntries he
  rw [hje, specEntry_offset]
  omega

/-! ### readEntries and get_versions lemmas -/

theorem readEntries_ok (data : List Nat) (n : Nat) :
    ∀ (off : Nat) (acc : VersionTable), off + 64 * n ≤ data.length →
    readEntries data n off acc = .ret (insertAll acc (specEntries data off n)) := by
  induction n with
  | zero => intro off acc _; rfl
  | succ n ih =>
    intro off acc h
    unfold readEntries
    rw [show rsSlice data (off + 8) (off + 64) =
          some (readBytes data (off + 8) 56) by
        unfold rsSlice readBytes
        rw [if_pos ⟨by omega, by omega⟩,
          show off + 64 - (off + 8) = 56 from by omega],
      show rsSlice data off (off + 8) = some (readBytes data off 8) by
        unfold rsSlice readBytes
        rw [if_pos ⟨by omega, by omega⟩,
          show off + 8 - off = 8 from by omega]]
    show readEntries data n (off + 64)
        (hm_insert acc (str_from_u8 (readBytes data (off + 8) 56))
          { crc := u64_from_le_bytes (readBytes data off 8), offset := off }) =
      RustResult.ret (insertAll acc (specEntries data off (n + 1)))
    rw [ih (off + 64) _ (by omega)]
    rfl

theorem readEntries_oob (data : List Nat) (n : Nat) :
    ∀ (off : Nat) (acc : VersionTable), 0 < n →
    data.length < off + 64 * n → readEntries data n off acc = .panic := by
  induction n with
  | zero => intro _ _ h; omega
  | succ n ih =>
    intro off acc _ h
    by_cases h1 : off + 64 ≤ data.length
    · unfold readEntries
      rw [show rsSlice data (off + 8) (off + 64) =
            some (readBytes data (off + 8) 56) by
          unfold rsSlice readBytes
          rw [if_pos ⟨by omega, by omega⟩,
            show off + 64 - (off + 8) = 56 from by omega],
        show rsSlice data off (off + 8) = some (readBytes data off 8) by
          unfold rsSlice readBytes
          rw [if_pos ⟨by omega, by omega⟩,
            show off + 8 - off = 8 from by omega]]
      show readEntries data n (off + 64)
          (hm_insert acc (str_from_u8 (readBytes data (off + 8) 56))
            { crc := u64_from_le_bytes (readBytes data off 8),
              offset := off }) = RustResult.panic
      exact ih (off + 64) _ (by omega) (by omega)
    · unfold readEntries
      rw [show rsSlice data (off + 8) (off + 64) = none by
        unfold rsSlice
        rw [if_neg (by omega)]]

theorem readEntries_ret_bound {data : List Nat} {n off : Nat}
    {acc t : VersionTable} (hn : 0 < n)
    (h : readEntries data n off acc = .ret t) :
    off + 64 * n ≤ data.length := by
  by_contra hc
  rw [readEntries_oob data n off acc hn (by omega)] at h
  cases h

theorem get_versions_eq {info : List SectionHeader} {data : List Nat}
    {sh : SectionHeader} (hsh : find_section info "__versions" = some sh)
    (hmul : sh.sh_size % 64 = 0)
    (hb : sh.sh_offset + sh.sh_size ≤ data.length) :
    get_versions info data =
      .ret (some (insertAll []
        (specEntries data sh.sh_offset (sh.sh_size / 64)))) := by
  have hdiv : sh.sh_size / 64 * 64 = sh.sh_size :=
    Nat.div_mul_cancel (Nat.dvd_of_mod_eq_zero hmul)
  unfold get_versions
  rw [hsh]
  simp only [if_neg (show ¬sh.sh_size / 64 * 64 ≠ sh.sh_size from
    fun hne => hne hdiv)]
  rw [readEntries_ok data (sh.sh_size / 64) sh.sh_offset [] (by omega)]

/-! ### Patch-engine lemmas -/

theorem patch_cons_none {s : VersionTable} {name : Name} {tver : SymVersion}
    {l : List (Name × SymVersion)} {buf : List Nat}
    (hs : hm_get s name = none) :
    patch_with_source s ((name, tver) :: l) buf =
      patch_with_source s l buf := by
  simp only [patch_with_source, hs]

theorem patch_cons_some {s : VersionTable} {name : Name} {tver : SymVersion}
    {l : List (Name × SymVersion)} {buf buf2 : List Nat} {sv : SymVersion}
    (hs : hm_get s name = some sv)
    (hsp : splice buf tver.offset (u64_to_le_bytes sv.crc) = some buf2) :
    patch_with_source s ((name, tver) :: l) buf =
      patch_with_source s l buf2 := by
  simp only [patch_with_source, hs, hsp]

theorem patch_cons_some_panic {s : VersionTable} {name : Name}
    {tver : SymVersion} {l : List (Name × SymVersion)} {buf : List Nat}
    {sv : SymVersion} (hs : hm_get s name = some sv)
    (hsp : splice buf tver.offset (u64_to_le_bytes sv.crc) = none) :
    patch_with_source s ((name, tver) :: l) buf = .panic := by
  simp only [patch_with_source, hs, hsp]

theorem patch_with_source_ret_exists (s : VersionTable)
    (l : List (Name × SymVersion)) :
    ∀ (buf : List Nat), (∀ e ∈ l, e.2.offset + 8 ≤ buf.length) →
    ∃ out, patch_with_source s l buf = .ret out := by
  induction l with
  | nil => intro buf _; exact ⟨buf, rfl⟩
  | cons e l ih =>
    intro buf hb
    obtain ⟨name, tver⟩ := e
    cases hs : hm_get s name with
    | none =>
      rw [patch_cons_none hs]
      exact ih buf (fun e he => hb e (List.mem_cons_of_mem _ he))
    | some sv =>
      have hsp : splice buf tver.offset (u64_to_le_bytes sv.crc) =
          some (buf.take tver.offset ++ u64_to_le_bytes sv.crc ++
            buf.drop (tver.offset + (u64_to_le_bytes sv.crc).length)) :=
        splice_some (by
          rw [length_u64_to_le_bytes]
          exact hb (name, tver) (by simp))
      rw [patch_cons_some hs hsp]
      apply ih
      intro e he
      have := hb e (List.mem_cons_of_mem _ he)
      have hlen := splice_length hsp
      omega

theorem patch_with_source_length {s : VersionTable}
    {l : List (Name × SymVersion)} :
    ∀ {buf out : List Nat}, patch_with_source s l buf = .ret out →
    out.length = buf.length := by
  induction l with
  | nil =>
    intro buf out h
    cases h
    rfl
  | cons e l ih =>
    intro buf out h
    obtain ⟨name, tver⟩ := e
    cases hs : hm_get s name with
    | none =>
      rw [patch_cons_none hs] at h
      exact ih h
    | some sv =>
      cases hsp : splice buf tver.offset (u64_to_le_bytes sv.crc) with
      | none => rw [patch_cons_some_panic hs hsp] at h; cases h
      | some buf2 =>
        rw [patch_cons_some hs hsp] at h
        rw [ih h, splice_length hsp]

theorem patch_with_source_frame {s : VersionTable}
    {l : List (Name × SymVersion)} {i : Nat} :
    ∀ {buf out : List Nat}, patch_with_source s l buf = .ret out →
    (∀ e ∈ l, (hm_get s e.1).isSome = true →
      i < e.2.offset ∨ e.2.offset + 8 ≤ i) →
    out[i]? = buf[i]? := by
  induction l with
  | nil =>
    intro buf out h _
    cases h
    rfl
  | cons e l ih =>
    intro buf out h hi
    obtain ⟨name, tver⟩ := e
    cases hs : hm_get s name with
    | none =>
      rw [patch_cons_none hs] at h
      exact ih h (fun e he => hi e (List.mem_cons_of_mem _ he))
    | some sv =>
      cases hsp : splice buf tver.offset (u64_to_le_bytes sv.crc) with
      | none => rw [patch_cons_some_panic hs hsp] at h; cases h
      | some buf2 =>
        rw [patch_cons_some hs hsp] at h
        rw [ih h (fun e he => hi e (List.mem_cons_of_mem _ he))]
        apply splice_frame hsp
        have := hi (name, tver) (by simp) (by simp [hs])
        rw [length_u64_to_le_bytes]
        simpa using this

theorem patch_with_source_countDiff {s : VersionTable}
    {l : List (Name × SymVersion)} :
    ∀ {buf out : List Nat}, patch_with_source s l buf = .ret out →
    countDiff buf out ≤ 8 * (l.countP fun e => (hm_get s e.1).isSome) := by
  induction l with
  | nil =>
    intro buf out h
    cases h
    simp [countDiff_self]
  | cons e l ih =>
    intro buf out h
    obtain ⟨name, tver⟩ := e
    rw [List.countP_cons]
    cases hs : hm_get s name with
    | none =>
      rw [patch_cons_none hs] at h
      have := ih h
      have hcount : (if ((none : Option SymVersion).isSome = true)
          then 1 else 0) = 0 := rfl
      rw [hcount]
      omega
    | some sv =>
      cases hsp : splice buf tver.offset (u64_to_le_bytes sv.crc) with
      | none => rw [patch_cons_some_panic hs hsp] at h; cases h
      | some buf2 =>
        rw [patch_cons_some hs hsp] at h
        have h1 : countDiff buf buf2 ≤ 8 := by
          have := countDiff_splice hsp
          rwa [length_u64_to_le_bytes] at this
        have h2 := ih h
        have h3 := countDiff_triangle buf buf2 out
          (splice_length hsp).symm (patch_with_source_length h).symm
        have hcount : (if ((some sv).isSome = true) then 1 else 0) = 1 := rfl
        rw [hcount]
        omega

theorem disjoint_symm :
    Symmetric (fun (a b : Name × SymVersion) =>
      a.2.offset + 8 ≤ b.2.offset ∨ b.2.offset + 8 ≤ a.2.offset) :=
  fun _ _ h => h.symm

theorem patch_with_source_writes {s : VersionTable}
    {l : List (Name × SymVersion)} (hd : DisjointRanges l) :
    ∀ {buf out : List Nat}, patch_with_source s l buf = .ret out →
    ∀ e ∈ l, ∀ sv, hm_get s e.1 = some sv →
      readBytes out e.2.offset 8 = u64_to_le_bytes sv.crc := by
  induction l with
  | nil => intro buf out _ e he; cases he
  | cons e0 l ih =>
    intro buf out h e he sv hsv
    obtain ⟨name, tver⟩ := e0
    obtain ⟨hd0, hdl⟩ := List.pairwise_cons.mp hd
    cases hs : hm_get s name with
    | none =>
      rw [patch_cons_none hs] at h
      rcases List.mem_cons.mp he with he' | he'
      · rw [he'] at hsv
        rw [hsv] at hs
        cases hs
      · exact ih hdl h e he' sv hsv
    | some sv0 =>
      cases hsp : splice buf tver.offset (u64_to_le_bytes sv0.crc) with
      | none => rw [patch_cons_some_panic hs hsp] at h; cases h
      | some buf2 =>
        rw [patch_cons_some hs hsp] at h
        rcases List.mem_cons.mp he with he' | he'
        · subst he'
          simp only at hsv
          rw [hsv] at hs
          cases hs
          have hwin : ∀ j, j < 8 →
              out[tver.offset + j]? = buf2[tver.offset + j]? := by
            intro j hj
            apply patch_with_source_frame h
            intro e' he' hsome'
            have hdis : tver.offset + 8 ≤ e'.2.offset ∨
                e'.2.offset + 8 ≤ tver.offset := hd0 e' he'
            rcases hdis with hdis | hdis
            · omega
            · omega
          rw [readBytes_congr hwin]
          have := splice_read hsp
          rwa [length_u64_to_le_bytes] at this
        · exact ih hdl h e he' sv hsv

theorem patch_with_source_untouched {s : VersionTable}
    {l : List (Name × SymVersion)} (hd : DisjointRanges l)
    {buf out : List Nat} (h : patch_with_source s l buf = .ret out) :
    ∀ e ∈ l, hm_get s e.1 = none →
      readBytes out e.2.offset 8 = readBytes buf e.2.offset 8 := by
  intro e he hsnone
  apply readBytes_congr
  intro j hj
  apply patch_with_source_frame h
  intro e' he' hsome'
  have hne : e' ≠ e := by
    intro heq
    rw [heq, hsnone] at hsome'
    cases hsome'
  rcases hd.forall disjoint_symm he' he hne with hdis | hdis
  · omega
  · omega

/-! ### Layout-override lemmas -/

theorem apply_layout_override_ret {t : VersionTable} {v : Nat}
    {buf : List Nat} {tml : SymVersion}
    (hml : hm_get t module_layout = some tml)
    (hb : tml.offset + 8 ≤ buf.length) :
    ∃ out, apply_layout_override t v buf = .ret out ∧
      splice buf tml.offset (u64_to_le_bytes v) = some out := by
  have ho : splice buf tml.offset (u64_to_le_bytes v) =
      some (buf.take tml.offset ++ u64_to_le_bytes v ++
        buf.drop (tml.offset + (u64_to_le_bytes v).length)) :=
    splice_some (by rw [length_u64_to_le_bytes]; omega)
  refine ⟨_, ?_, ho⟩
  simp only [apply_layout_override, hml, ho]

theorem apply_layout_override_panic {t : VersionTable} {v : Nat}
    {buf : List Nat} (hml : hm_get t module_layout = none) :
    apply_layout_override t v buf = .panic := by
  simp only [apply_layout_override, hml]

theorem apply_layout_override_ret_inv {t : VersionTable} {v : Nat}
    {buf out : List Nat} (h : apply_layout_override t v buf = .ret out) :
    ∃ tml, hm_get t module_layout = some tml ∧
      splice buf tml.offset (u64_to_le_bytes v) = some out := by
  unfold apply_layout_override at h
  cases hml : hm_get t module_layout with
  | none =>
    simp only [hml] at h
    exact RustResult.noConfusion h
  | some tml =>
    simp only [hml] at h
    cases hsp : splice buf tml.offset (u64_to_le_bytes v) with
    | none =>
      simp only [hsp] at h
      exact RustResult.noConfusion h
    | some o =>
      simp only [hsp] at h
      cases h
      exact ⟨tml, rfl, hsp⟩

/-! ### The merge loop as a fold, and commutation of disjoint writes -/

/-- One iteration of the source-merge loop, as a fold step over the
iteration state (panic absorbs). -/
def patch_step (s : VersionTable) (st : RustResult (List Nat))
    (e : Name × SymVersion) : RustResult (List Nat) :=
  match st with
  | .panic => .panic
  | .ret buf =>
    match hm_get s e.1 with
    | some s_ver =>
      match splice buf e.2.offset (u64_to_le_bytes s_ver.crc) with
      | some buf2 => .ret buf2
      | none => .panic
    | none => .ret buf

theorem patch_step_panic (s : VersionTable) (e : Name × SymVersion) :
    patch_step s .panic e = .panic := rfl

theorem patch_step_skip {s : VersionTable} {e : Name × SymVersion}
    (hs : hm_get s e.1 = none) (st : RustResult (List Nat)) :
    patch_step s st e = st := by
  cases st with
  | panic => rfl
  | ret buf => simp only [patch_step, hs]

theorem foldl_patch_step_panic (s : VersionTable)
    (l : List (Name × SymVersion)) :
    l.foldl (patch_step s) .panic = .panic := by
  induction l with
  | nil => rfl
  | cons e l ih => rw [List.foldl_cons, patch_step_panic]; exact ih

theorem patch_eq_foldl (s : VersionTable) (l : List (Name × SymVersion)) :
    ∀ buf, patch_with_source s l buf = l.foldl (patch_step s) (.ret buf) := by
  induction l with
  | nil => intro buf; rfl
  | cons e l ih =>
    intro buf
    obtain ⟨name, tver⟩ := e
    cases hs : hm_get s name with
    | none =>
      rw [patch_cons_none hs, List.foldl_cons,
        patch_step_skip (by simpa using hs)]
      exact ih buf
    | some sv =>
      cases hsp : splice buf tver.offset (u64_to_le_bytes sv.crc) with
      | none =>
        rw [patch_cons_some_panic hs hsp, List.foldl_cons,
          show patch_step s (.ret buf) (name, tver) = .panic by
            simp only [patch_step, hs, hsp]]
        exact (foldl_patch_step_panic s l).symm
      | some buf2 =>
        rw [patch_cons_some hs hsp, List.foldl_cons,
          show patch_step s (.ret buf) (name, tver) = .ret buf2 by
            simp only [patch_step, hs, hsp]]
        exact ih buf2

theorem splice_none {buf repl : List Nat} {off : Nat}
    (h : buf.length < off + repl.length) : splice buf off repl = none := by
  unfold splice
  rw [if_neg (by omega)]

theorem splice_comm {b : List Nat} {o₁ o₂ : Nat} {r₁ r₂ : List Nat}
    (hdis : o₁ + r₁.length ≤ o₂ ∨ o₂ + r₂.length ≤ o₁) :
    (splice b o₁ r₁).bind (fun x => splice x o₂ r₂) =
      (splice b o₂ r₂).bind (fun x => splice x o₁ r₁) := by
  by_cases h₁ : o₁ + r₁.length ≤ b.length <;>
    by_cases h₂ : o₂ + r₂.length ≤ b.length
  · obtain ⟨x1, hx1⟩ : ∃ x, splice b o₁ r₁ = some x := ⟨_, splice_some h₁⟩
    obtain ⟨x2, hx2⟩ : ∃ x, splice b o₂ r₂ = some x := ⟨_, splice_some h₂⟩
    have hx1len := splice_length hx1
    have hx2len := splice_length hx2
    obtain ⟨y1, hy1⟩ : ∃ y, splice x1 o₂ r₂ = some y :=
      ⟨_, splice_some (by omega)⟩
    obtain ⟨y2, hy2⟩ : ∃ y, splice x2 o₁ r₁ = some y :=
      ⟨_, splice_some (by omega)⟩
    rw [hx1, hx2]
    show splice x1 o₂ r₂ = splice x2 o₁ r₁
    rw [hy1, hy2]
    congr 1
    apply List.ext_getElem?
    intro i
    rw [splice_getElem? hy1 i, splice_getElem? hx1 i,
      splice_getElem? hy2 i, splice_getElem? hx2 i]
    split_ifs <;> first | rfl | (exfalso; omega)
  · obtain ⟨x1, hx1⟩ : ∃ x, splice b o₁ r₁ = some x := ⟨_, splice_some h₁⟩
    have hx1len := splice_length hx1
    rw [hx1, splice_none (by omega)]
    show splice x1 o₂ r₂ = none
    exact splice_none (by omega)
  · obtain ⟨x2, hx2⟩ : ∃ x, splice b o₂ r₂ = some x := ⟨_, splice_some h₂⟩
    have hx2len := splice_length hx2
    rw [hx2, splice_none (by omega)]
    show none = splice x2 o₁ r₁
    exact (splice_none (by omega)).symm
  · rw [splice_none (by omega), splice_none (by omega)]
    rfl

theorem patch_step_step_some {s : VersionTable} {x y : Name × SymVersion}
    {buf : List Nat} {svx svy : SymVersion}
    (hsx : hm_get s x.1 = some svx) (hsy : hm_get s y.1 = some svy) :
    patch_step s (patch_step s (.ret buf) x) y =
      (match (splice buf x.2.offset (u64_to_le_bytes svx.crc)).bind
             (fun c => splice c y.2.offset (u64_to_le_bytes svy.crc)) with
       | some c => .ret c
       | none => .panic) := by
  cases hsp : splice buf x.2.offset (u64_to_le_bytes svx.crc) with
  | none => simp only [patch_step, hsx, hsp, Option.none_bind]
  | some c => simp only [patch_step, hsx, hsp, hsy, Option.some_bind]

theorem patch_step_comm {s : VersionTable} {x y : Name × SymVersion}
    (hdis : x.2.offset + 8 ≤ y.2.offset ∨ y.2.offset + 8 ≤ x.2.offset)
    (z : RustResult (List Nat)) :
    patch_step s (patch_step s z x) y = patch_step s (patch_step s z y) x := by
  cases z with
  | panic => rfl
  | ret buf =>
    cases hsx : hm_get s x.1 with
    | none => rw [patch_step_skip hsx, patch_step_skip hsx]
    | some svx =>
      cases hsy : hm_get s y.1 with
      | none => rw [patch_step_skip hsy, patch_step_skip hsy]
      | some svy =>
        rw [patch_step_step_some hsx hsy, patch_step_step_some hsy hsx,
          splice_comm (by
            rw [length_u64_to_le_bytes, length_u64_to_le_bytes]
            exact hdis)]

/-! ### Zero-terminated-name characterization -/

theorem str_from_u8_no_zero (l : List Nat) : 0 ∉ str_from_u8 l := by
  intro h
  have := List.mem_takeWhile_imp h
  simp at this

theorem str_from_u8_prefix_zero (l : List Nat) :
    str_from_u8 l = l ∨ ∃ rest, l = str_from_u8 l ++ 0 :: rest := by
  induction l with
  | nil => exact Or.inl rfl
  | cons b l ih =>
    by_cases hb : b = 0
    · subst hb
      refine Or.inr ⟨l, ?_⟩
      rw [str_from_u8, List.takeWhile_cons]
      simp
    · rcases ih with h | ⟨rest, hrest⟩
      · left
        rw [str_from_u8, List.takeWhile_cons, if_pos (by simpa using hb)]
        rw [str_from_u8] at h
        rw [h]
      · right
        refine ⟨rest, ?_⟩
        rw [str_from_u8, List.takeWhile_cons, if_pos (by simpa using hb)]
        rw [str_from_u8] at hrest
        rw [List.cons_append, ← hrest]

/-! ### Last-wins lookup keeps the record with the greatest offset -/

theorem find?_max_offset {k : Name} {p : Name × SymVersion} :
    ∀ {r : List (Name × SymVersion)},
    r.Pairwise (fun a b => b.2.offset < a.2.offset) →
    r.find? (fun q => q.1 == k) = some p →
    ∀ e ∈ r, e.1 = k → e.2.offset ≤ p.2.offset := by
  intro r
  induction r with
  | nil => intro _ hf; cases hf
  | cons q r ih =>
    intro hpw hf
    obtain ⟨hq, hpw'⟩ := List.pairwise_cons.mp hpw
    by_cases hqk : q.1 = k
    · rw [List.find?_cons_of_pos _ (by simpa using hqk)] at hf
      cases hf
      intro e he _
      rcases List.mem_cons.mp he with rfl | he'
      · exact Nat.le_refl _
      · exact Nat.le_of_lt (hq e he')
    · rw [List.find?_cons_of_neg _ (by simpa using hqk)] at hf
      intro e he hek
      rcases List.mem_cons.mp he with rfl | he'
      · exact absurd hek hqk
      · exact ih hpw' hf e he' hek

/-! ### Decoded tables are well-formed -/

theorem any_key_false_iff (m : VersionTable) (k : Name) :
    ((m.any fun p => p.1 == k) = false) ↔ k ∉ m.map Prod.fst := by
  constructor
  · intro h hk
    obtain ⟨p, hp, hpk⟩ := List.mem_map.mp hk
    have : (m.any fun p => p.1 == k) = true :=
      List.any_eq_true.mpr ⟨p, hp, by simp [hpk]⟩
    rw [h] at this
    cases this
  · intro h
    by_contra hne
    have : (m.any fun p => p.1 == k) = true := by
      cases hb : m.any fun p => p.1 == k with
      | true => rfl
      | false => exact absurd hb hne
    obtain ⟨p, hp, hpk⟩ := List.any_eq_true.mp this
    exact h (List.mem_map.mpr ⟨p, hp, by simpa using hpk⟩)

theorem keys_map_replace (m : VersionTable) (k : Name) (v : SymVersion) :
    ((m.map fun q => if q.1 == k then (k, v) else q).map Prod.fst) =
      m.map Prod.fst := by
  rw [List.map_map]
  apply List.map_congr_left
  intro q _
  by_cases hqk : q.1 = k
  · show (if q.1 == k then (k, v) else q).1 = q.1
    rw [if_pos (by simpa using hqk)]
    exact hqk.symm
  · show (if q.1 == k then (k, v) else q).1 = q.1
    rw [if_neg (by simpa using hqk)]

theorem keys_hm_insert_nodup {m : VersionTable} {k : Name} (v : SymVersion)
    (h : (m.map Prod.fst).Nodup) :
    ((hm_insert m k v).map Prod.fst).Nodup := by
  unfold hm_insert
  split
  · rw [keys_map_replace]
    exact h
  · next hany =>
    rw [List.map_append]
    rw [List.nodup_append]
    refine ⟨h, by simp, ?_⟩
    intro a ha
    have hk : k ∉ m.map Prod.fst :=
      (any_key_false_iff m k).mp (Bool.not_eq_true _ ▸ eq_false_of_ne_true hany)
    simp only [List.map_cons, List.map_nil, List.mem_singleton]
    intro hak
    rw [hak] at ha
    exact hk ha

theorem keys_insertAll_nodup (l : List (Name × SymVersion)) :
    ∀ m : VersionTable, (m.map Prod.fst).Nodup →
      ((insertAll m l).map Prod.fst).Nodup := by
  induction l with
  | nil => intro m hm; exact hm
  | cons p l ih =>
    intro m hm
    rw [insertAll_cons]
    exact ih _ (keys_hm_insert_nodup _ hm)

theorem pairwise_hm_insert {m : VersionTable} {k : Name} {v : SymVersion}
    (hnd : (m.map Prod.fst).Nodup) (hpw : DisjointRanges m)
    (hcross : ∀ e ∈ m, e.2.offset + 64 ≤ v.offset) :
    DisjointRanges (hm_insert m k v) := by
  unfold hm_insert DisjointRanges
  split
  · rw [List.pairwise_map]
    apply List.Pairwise.imp_of_mem ?_ hpw
    intro a b ha hb hr
    by_cases hak : a.1 = k <;> by_cases hbk : b.1 = k
    · exfalso
      have hab : a = b :=
        List.inj_on_of_nodup_map hnd ha hb (by rw [hak, hbk])
      subst hab
      rcases hr with hr | hr <;> omega
    · rw [if_pos (by simpa using hak), if_neg (by simpa using hbk)]
      exact Or.inr (by have := hcross b hb; simp only; omega)
    · rw [if_neg (by simpa using hak), if_pos (by simpa using hbk)]
      exact Or.inl (by have := hcross a ha; simp only; omega)
    · rw [if_neg (by simpa using hak), if_neg (by simpa using hbk)]
      exact hr
  · rw [List.pairwise_append]
    refine ⟨hpw, List.pairwise_singleton _ _, ?_⟩
    intro a ha b hb
    rw [List.mem_singleton.mp hb]
    exact Or.inl (by have := hcross a ha; simp only; omega)

theorem insertAll_disjoint (l : List (Name × SymVersion)) :
    ∀ m : VersionTable, (m.map Prod.fst).Nodup → DisjointRanges m →
      l.Pairwise (fun a b => a.2.offset + 64 ≤ b.2.offset) →
      (∀ e ∈ m, ∀ e' ∈ l, e.2.offset + 64 ≤ e'.2.offset) →
      DisjointRanges (insertAll m l) := by
  induction l with
  | nil => intro m _ hpw _ _; exact hpw
  | cons p l ih =>
    intro m hnd hpw hl hcross
    obtain ⟨hp, hl'⟩ := List.pairwise_cons.mp hl
    rw [insertAll_cons]
    apply ih
    · exact keys_hm_insert_nodup _ hnd
    · exact pairwise_hm_insert hnd hpw (fun e he => hcross e he p (by simp))
    · exact hl'
    · intro e he e' he'
      rcases mem_hm_insert he with hem | heq
      · exact hcross e hem e' (List.mem_cons_of_mem _ he')
      · rw [heq]
        simpa using hp e' he'

/-! ### get_versions inversion -/

theorem get_versions_absent {info : List SectionHeader} {data : List Nat}
    (hsh : find_section info "__versions" = none) :
    get_versions info data = .ret none := by
  unfold get_versions
  rw [hsh]

theorem get_versions_section {info : List SectionHeader} {data : List Nat}
    {sh : SectionHeader} (hsh : find_section info "__versions" = some sh) :
    get_versions info data =
      if sh.sh_size / 64 * 64 ≠ sh.sh_size then .ret none
      else
        match readEntries data (sh.sh_size / 64) sh.sh_offset [] with
        | .panic => .panic
        | .ret versions => .ret (some versions) := by
  unfold get_versions
  rw [hsh]

theorem get_versions_some_inv {info : List SectionHeader} {data : List Nat}
    {t : VersionTable} (h : get_versions info data = .ret (some t)) :
    ∃ sh, find_section info "__versions" = some sh ∧
      sh.sh_size % 64 = 0 ∧
      (sh.sh_size / 64 = 0 ∨ sh.sh_offset + sh.sh_size ≤ data.length) ∧
      t = insertAll [] (specEntries data sh.sh_offset (sh.sh_size / 64)) := by
  cases hsh : find_section info "__versions" with
  | none =>
    rw [get_versions_absent hsh] at h
    exact absurd h (by simp)
  | some sh =>
    rw [get_versions_section hsh] at h
    by_cases hcond : sh.sh_size / 64 * 64 ≠ sh.sh_size
    · rw [if_pos hcond] at h
      exact absurd h (by simp)
    · rw [if_neg hcond] at h
      rw [Classical.not_not] at hcond
      have hmul : sh.sh_size % 64 = 0 := by omega
      by_cases hn : sh.sh_size / 64 = 0
      · rw [hn] at h
        have h0 : readEntries data 0 sh.sh_offset [] = .ret [] := rfl
        rw [h0] at h
        have ht : t = [] := by
          cases h
          rfl
        exact ⟨sh, rfl, hmul, Or.inl hn, by rw [ht, hn]; rfl⟩
      · have hn' : 0 < sh.sh_size / 64 := Nat.pos_of_ne_zero hn
        cases hre : readEntries data (sh.sh_size / 64) sh.sh_offset [] with
        | panic =>
          rw [hre] at h
          exact absurd h (by simp)
        | ret t' =>
          have hbound := readEntries_ret_bound hn' hre
          have hok := readEntries_ok data (sh.sh_size / 64) sh.sh_offset []
            hbound
          rw [hok] at h
          have ht : t = insertAll []
              (specEntries data sh.sh_offset (sh.sh_size / 64)) := by
            cases h
            rfl
          exact ⟨sh, rfl, hmul, Or.inr (by omega), ht⟩

theorem get_versions_wf {info : List SectionHeader} {data : List Nat}
    {t : VersionTable} (h : get_versions info data = .ret (some t)) :
    (t.map Prod.fst).Nodup ∧ DisjointRanges t ∧ InBounds t data.length := by
  obtain ⟨sh, hsh, hmul, hb0, ht⟩ := get_versions_some_inv h
  subst ht
  refine ⟨keys_insertAll_nodup _ [] (by simp), ?_, ?_⟩
  · exact insertAll_disjoint _ []
      (by simp) (List.Pairwise.nil)
      (specEntries_pairwise_offsets data sh.sh_offset (sh.sh_size / 64))
      (by intro e he; cases he)
  · intro e he
    rcases mem_insertAll _ _ he with h' | h'
    · cases h'
    · rcases hb0 with h0 | hbd
      · rw [h0] at h'
        cases h'
      · exact specEntries_inBounds data sh.sh_offset (sh.sh_size / 64)
          (by omega) e h'

/-! ### Claim theorems -/

/-- C3: every entry of a decoded version table carries the little-endian
64-bit value of the entry's first 8 bytes as its checksum, the
zero-terminated prefix of the following 56-byte field as its name (the whole
field when no zero byte occurs), and the entry's absolute start offset in
the buffer as its byte_offset. -/
theorem c3_version_record_decode {info : List SectionHeader}
    {data : List Nat} {t : VersionTable} {sh : SectionHeader}
    (hdec : get_versions info data = .ret (some t))
    (hsh : find_section info "__versions" = some sh) :
    ∀ e ∈ t, ∃ j, j < sh.sh_size / 64 ∧
      e.2.offset = sh.sh_offset + 64 * j ∧
      e.2.offset + 64 ≤ data.length ∧
      e.2.crc = u64_from_le_bytes (readBytes data e.2.offset 8) ∧
      e.1 = str_from_u8 (readBytes data (e.2.offset + 8) 56) ∧
      0 ∉ e.1 ∧
      (e.1 = readBytes data (e.2.offset + 8) 56 ∨
        ∃ rest, readBytes data (e.2.offset + 8) 56 = e.1 ++ 0 :: rest) := by
  intro e he
  obtain ⟨sh', hsh', hmul, hb0, ht⟩ := get_versions_some_inv hdec
  rw [hsh] at hsh'
  obtain rfl : sh = sh' := Option.some.inj hsh'
  subst ht
  rcases mem_insertAll _ _ he with h' | h'
  · cases h'
  · obtain ⟨j, hj, hje⟩ := mem_specEntries h'
    have hboundj : sh.sh_offset + 64 * j + 64 ≤ data.length := by
      rcases hb0 with h0 | hbd
      · omega
      · omega
    refine ⟨j, hj, ?_, ?_, ?_, ?_, ?_, ?_⟩
    · rw [hje]; rfl
    · rw [hje, specEntry_offset]; exact hboundj
    · rw [hje, specEntry_offset]; rfl
    · rw [hje, specEntry_offset]; rfl
    · rw [hje]
      exact str_from_u8_no_zero _
    · rw [hje, specEntry_offset]
      have := str_from_u8_prefix_zero (readBytes data
        (sh.sh_offset + 64 * j + 8) 56)
      rcases this with h | ⟨rest, hrest⟩
      · left
        show str_from_u8 (readBytes data (sh.sh_offset + 64 * j + 8) 56) =
          readBytes data (sh.sh_offset + 64 * j + 8) 56
        exact h
      · right
        exact ⟨rest, hrest⟩

/-- C5 (amended): when the section size is a multiple of 64 and the whole
section lies inside the buffer, decoding succeeds and the number of decoded
records equals size/64 provided the recovered names are pairwise distinct;
in general it is at most size/64 (duplicate names collapse, see C9).  A
size that is not a multiple of 64 always yields the malformed-table
failure (None), never a truncated table. -/
theorem c5_record_count {info : List SectionHeader} {data : List Nat}
    {sh : SectionHeader} (hsh : find_section info "__versions" = some sh) :
    (sh.sh_size % 64 = 0 → sh.sh_offset + sh.sh_size ≤ data.length →
      ∃ t, get_versions info data = .ret (some t) ∧
        t.length ≤ sh.sh_size / 64 ∧
        (((specEntries data sh.sh_offset (sh.sh_size / 64)).map
            Prod.fst).Nodup → t.length = sh.sh_size / 64)) ∧
    (sh.sh_size % 64 ≠ 0 → get_versions info data = .ret none) := by
  constructor
  · intro hmul hb
    refine ⟨_, get_versions_eq hsh hmul hb, ?_, ?_⟩
    · have h1 := length_insertAll_le
        (specEntries data sh.sh_offset (sh.sh_size / 64)) []
      rw [specEntries_length] at h1
      simpa using h1
    · intro hnd
      rw [length_insertAll_fresh
        (specEntries data sh.sh_offset (sh.sh_size / 64)) [] hnd
        (fun p _ => rfl)]
      rw [List.length_nil, specEntries_length]
      omega
  · intro hmul
    rw [get_versions_section hsh, if_pos (by omega)]

/-- C9: under duplicate symbol names the decoder still succeeds; every
decoded name is kept, and the record retained for a name is one of the
entries bearing that name whose byte_offset is the greatest (the last-seen
entry), the earlier ones being silently discarded. -/
theorem c9_duplicate_last_wins {info : List SectionHeader} {data : List Nat}
    {sh : SectionHeader} (hsh : find_section info "__versions" = some sh)
    (hmul : sh.sh_size % 64 = 0)
    (hb : sh.sh_offset + sh.sh_size ≤ data.length) :
    ∃ t, get_versions info data = .ret (some t) ∧
      (∀ e ∈ specEntries data sh.sh_offset (sh.sh_size / 64),
        (hm_get t e.1).isSome = true) ∧
      ∀ k sv, hm_get t k = some sv →
        (k, sv) ∈ specEntries data sh.sh_offset (sh.sh_size / 64) ∧
        ∀ e ∈ specEntries data sh.sh_offset (sh.sh_size / 64),
          e.1 = k → e.2.offset ≤ sv.offset := by
  refine ⟨_, get_versions_eq hsh hmul hb, ?_, ?_⟩
  · intro e he
    rw [hm_get_insertAll_nil]
    unfold lookupLast
    rw [Option.isSome_map']
    have hex : ∃ x, x ∈ (specEntries data sh.sh_offset
        (sh.sh_size / 64)).reverse ∧ (x.1 == e.1) = true :=
      ⟨e, List.mem_reverse.mpr he, by simp⟩
    exact (List.find?_isSome.mpr hex)
  · intro k sv hget
    rw [hm_get_insertAll_nil] at hget
    unfold lookupLast at hget
    cases hf : (specEntries data sh.sh_offset
        (sh.sh_size / 64)).reverse.find? (fun p => p.1 == k) with
    | none =>
      rw [hf] at hget
      cases hget
    | some p =>
      rw [hf] at hget
      have hsv : p.2 = sv := by
        simp only [Option.map_some'] at hget
        exact Option.some.inj hget
      have hpk : p.1 = k := by simpa using List.find?_some hf
      have hpmem : p ∈ specEntries data sh.sh_offset (sh.sh_size / 64) :=
        List.mem_reverse.mp (List.mem_of_find?_eq_some hf)
      constructor
      · have : (k, sv) = p := by rw [← hpk, ← hsv]
        rw [this]
        exact hpmem
      · intro e he hek
        have hpw : (specEntries data sh.sh_offset
            (sh.sh_size / 64)).reverse.Pairwise
            (fun a b => b.2.offset < a.2.offset) := by
          rw [List.pairwise_reverse]
          exact (specEntries_pairwise_offsets data sh.sh_offset
            (sh.sh_size / 64)).imp (fun h => by omega)
        have := find?_max_offset hpw hf e (List.mem_reverse.mpr he) hek
        rw [← hsv]
        exact this

theorem apply_patch_none (t : VersionTable) (buf : List Nat)
    (mlv : Option Nat) :
    apply_patch t buf none mlv =
      (match mlv with
       | none => .ret buf
       | some v => apply_layout_override t v buf) := rfl

theorem apply_patch_some {t : VersionTable} {buf b1 : List Nat}
    {s : VersionTable} (mlv : Option Nat)
    (hm : patch_with_source s t buf = .ret b1) :
    apply_patch t buf (some s) mlv =
      (match mlv with
       | none => .ret b1
       | some v => apply_layout_override t v b1) := by
  simp only [apply_patch, hm]

theorem apply_patch_some_merge_panic {t : VersionTable} {buf : List Nat}
    {s : VersionTable} (mlv : Option Nat)
    (hm : patch_with_source s t buf = .panic) :
    apply_patch t buf (some s) mlv = .panic := by
  simp only [apply_patch, hm]

/-- C1 (amended): a successful patch run leaves the buffer length unchanged,
leaves every byte outside the patched 8-byte checksum ranges unchanged, and
the byte diff between the buffers is contained in those ranges, so it
touches at most 8 × (number of patched symbols) bytes (exactly that many
bytes are overwritten, but an overwritten byte only appears in the diff if
its new value differs). -/
theorem c1_patch_touches_only_checksums {t : VersionTable}
    {buf out : List Nat} {s? : Option VersionTable} {mlv : Option Nat}
    (h : apply_patch t buf s? mlv = .ret out) :
    out.length = buf.length ∧
    (∀ i, (∀ off ∈ patchedOffsets t s? mlv, i < off ∨ off + 8 ≤ i) →
      out[i]? = buf[i]?) ∧
    countDiff buf out ≤ 8 * (patchedOffsets t s? mlv).length := by
  cases s? with
  | none =>
    rw [apply_patch_none] at h
    cases mlv with
    | none =>
      cases h
      refine ⟨rfl, fun i _ => rfl, ?_⟩
      rw [countDiff_self]
      exact Nat.zero_le _
    | some v =>
      obtain ⟨tml, hml, hsp⟩ := apply_layout_override_ret_inv h
      have hlen8 := length_u64_to_le_bytes v
      refine ⟨splice_length hsp, ?_, ?_⟩
      · intro i hi
        apply splice_frame hsp
        rw [hlen8]
        exact hi tml.offset (by simp [patchedOffsets, hml])
      · have hd := countDiff_splice hsp
        rw [hlen8] at hd
        have hlenoffs : (patchedOffsets t none (some v)).length = 1 := by
          simp [patchedOffsets, hml]
        rw [hlenoffs]
        omega
  | some s =>
    cases hmerge : patch_with_source s t buf with
    | panic =>
      rw [apply_patch_some_merge_panic mlv hmerge] at h
      exact absurd h (by simp)
    | ret buf1 =>
      rw [apply_patch_some mlv hmerge] at h
      have hAlen : buf1.length = buf.length := patch_with_source_length hmerge
      have hBmem : ∀ e ∈ t, (hm_get s e.1).isSome = true →
          e.2.offset ∈ (t.filter fun e => (hm_get s e.1).isSome).map
            (fun e => e.2.offset) :=
        fun e he hs => List.mem_map.mpr ⟨e, List.mem_filter.mpr ⟨he, hs⟩, rfl⟩
      have hClen : (t.countP fun e => (hm_get s e.1).isSome) =
          ((t.filter fun e => (hm_get s e.1).isSome).map
            (fun e => e.2.offset)).length := by
        rw [List.length_map, List.countP_eq_length_filter]
      cases mlv with
      | none =>
        cases h
        refine ⟨hAlen, ?_, ?_⟩
        · intro i hi
          apply patch_with_source_frame hmerge
          intro e he hs
          apply hi e.2.offset
          simp only [patchedOffsets, List.append_nil]
          exact hBmem e he hs
        · have h1 := patch_with_source_countDiff hmerge
          rw [hClen] at h1
          simpa only [patchedOffsets, List.append_nil] using h1
      | some v =>
        obtain ⟨tml, hml, hsp⟩ := apply_layout_override_ret_inv h
        have hlen8 := length_u64_to_le_bytes v
        have houtlen : out.length = buf.length := by
          rw [splice_length hsp, hAlen]
        refine ⟨houtlen, ?_, ?_⟩
        · intro i hi
          have hml_off : i < tml.offset ∨ tml.offset + 8 ≤ i := by
            apply hi
            simp only [patchedOffsets, hml]
            exact List.mem_append_right _ (by simp)
          rw [splice_frame hsp i (by rw [hlen8]; exact hml_off)]
          apply patch_with_source_frame hmerge
          intro e he hs
          apply hi e.2.offset
          simp only [patchedOffsets, hml]
          exact List.mem_append_left _ (hBmem e he hs)
        · have h1 := patch_with_source_countDiff hmerge
          rw [hClen] at h1
          have h2 := countDiff_splice hsp
          rw [hlen8] at h2
          have h3 := countDiff_triangle buf buf1 out hAlen.symm
            (splice_length hsp).symm
          have hlenoffs : (patchedOffsets t (some s) (some v)).length =
              ((t.filter fun e => (hm_get s e.1).isSome).map
                (fun e => e.2.offset)).length + 1 := by
            simp [patchedOffsets, hml]
          rw [hlenoffs]
          omega

/-- C2: with a source table, every target entry whose name the source also
carries ends with the source record's checksum, little-endian, in the 8
bytes at its byte_offset; entries whose names the source lacks keep their
checksum bytes, and the merge loop completes without error. -/
theorem c2_source_merge_copies {info : List SectionHeader} {data : List Nat}
    {t : VersionTable} (s : VersionTable)
    (hdec : get_versions info data = .ret (some t)) :
    ∃ out, patch_with_source s t data = .ret out ∧
      ∀ e ∈ t, (∀ sv, hm_get s e.1 = some sv →
          readBytes out e.2.offset 8 = u64_to_le_bytes sv.crc) ∧
        (hm_get s e.1 = none →
          readBytes out e.2.offset 8 = readBytes data e.2.offset 8) := by
  obtain ⟨_, hd, hb⟩ := get_versions_wf hdec
  obtain ⟨out, hout⟩ := patch_with_source_ret_exists s t data
    (fun e he => hb e he)
  refine ⟨out, hout, ?_⟩
  intro e he
  exact ⟨fun sv hsv => patch_with_source_writes hd hout e he sv hsv,
    fun hnone => patch_with_source_untouched hd hout e he hnone⟩

/-- C4: with an explicit override value, patching succeeds whenever the
table is in bounds and has a module_layout record, and the final 8 bytes
at module_layout's byte_offset equal the override value little-endian,
whatever source table (if any) was merged first. -/
theorem c4_override_precedence {t : VersionTable} {buf : List Nat}
    {s? : Option VersionTable} {v : Nat} {tml : SymVersion}
    (hb : InBounds t buf.length)
    (hml : hm_get t module_layout = some tml) :
    ∃ out, apply_patch t buf s? (some v) = .ret out ∧
      readBytes out tml.offset 8 = u64_to_le_bytes v := by
  have htmlb : tml.offset + 8 ≤ buf.length := hb _ (hm_get_mem hml)
  obtain ⟨buf1, hbuf1, hlen1⟩ : ∃ b,
      apply_patch t buf s? (some v) = apply_layout_override t v b ∧
        b.length = buf.length := by
    cases s? with
    | none => exact ⟨buf, apply_patch_none t buf (some v), rfl⟩
    | some s =>
      obtain ⟨b, hbb⟩ := patch_with_source_ret_exists s t buf hb
      exact ⟨b, apply_patch_some (some v) hbb, patch_with_source_length hbb⟩
  obtain ⟨out, hout, hsp⟩ := @apply_layout_override_ret t v buf1 tml hml
    (by omega : tml.offset + 8 ≤ buf1.length)
  refine ⟨out, by rw [hbuf1, hout], ?_⟩
  have := splice_read hsp
  rwa [length_u64_to_le_bytes] at this

/-- C10 (amended): when the target records' 8-byte checksum ranges are
pairwise disjoint (as they are in a decoded table, whose records lie 64
bytes apart), the source merge gives the same result whatever order the
unordered map yields the target entries in. -/
theorem c10_merge_order_independent {s t : VersionTable} {buf : List Nat}
    (hd : DisjointRanges t) :
    ∀ l₂, t.Perm l₂ →
      patch_with_source s l₂ buf = patch_with_source s t buf := by
  intro l₂ hperm
  rw [patch_eq_foldl, patch_eq_foldl]
  refine (List.Perm.foldl_eq' hperm ?_ (RustResult.ret buf)).symm
  intro x hx y hy z
  by_cases hxy : x = y
  · subst hxy; rfl
  · exact patch_step_comm (hd.forall disjoint_symm hx hy hxy) z

/-- C6: when an explicit module_layout override is requested but the
decoded target table has no module_layout entry, the run fails (panic on
the expect, or an earlier failure on the source side) and never reaches the
output-writing step: no output bytes are produced. -/
theorem c6_missing_module_layout_aborts {t_shs : List SectionHeader}
    {t_buffer : List Nat} {src : Option (List SectionHeader × List Nat)}
    {v : Nat} {t : VersionTable}
    (hdec : get_versions t_shs t_buffer = .ret (some t))
    (hml : hm_get t module_layout = none) :
    (run_main t_shs t_buffer src (some v) = .panicAbort ∨
      run_main t_shs t_buffer src (some v) = .exitFailure) ∧
    ∀ out, run_main t_shs t_buffer src (some v) ≠ .wrote out := by
  have hshx : ∃ sh, find_section t_shs "__versions" = some sh := by
    cases hf : find_section t_shs "__versions" with
    | none =>
      rw [get_versions_absent hf] at hdec
      exact absurd hdec (by simp)
    | some sh => exact ⟨sh, rfl⟩
  obtain ⟨sh, hsh⟩ := hshx
  have hrun : run_main t_shs t_buffer src (some v) = .panicAbort ∨
      run_main t_shs t_buffer src (some v) = .exitFailure := by
    unfold run_main
    simp only [hsh, hdec]
    cases src with
    | none =>
      left
      simp only [apply_layout_override_panic hml]
    | some pr =>
      obtain ⟨s_shs, s_data⟩ := pr
      cases hgs : get_versions s_shs s_data with
      | panic =>
        left
        simp only [hgs]
      | ret os =>
        cases os with
        | none =>
          right
          simp only [hgs]
        | some sv =>
          cases hps : patch_with_source sv t t_buffer with
          | panic =>
            left
            simp only [hgs, hps]
          | ret b =>
            left
            simp only [hgs, hps, apply_layout_override_panic hml]
  refine ⟨hrun, ?_⟩
  intro out hw
  rcases hrun with hr | hr <;> rw [hr] at hw <;> cases hw

/-- C7 (amended): with no __versions section in the target, main's own
section check fires before any decoding: the program reports the absence
and terminates successfully without writing output.  The decoder function
itself, however, returns the same None for an absent section as for a
malformed size, so at the decoder's interface the two outcomes are not
distinguishable (see the counterexample). -/
theorem c7_absent_section_success {t_shs : List SectionHeader}
    {t_buffer : List Nat} {src : Option (List SectionHeader × List Nat)}
    {mlv : Option Nat}
    (habs : find_section t_shs "__versions" = none) :
    run_main t_shs t_buffer src mlv = .warnNoVersions ∧
    get_versions t_shs t_buffer = .ret none ∧
    ∀ out, run_main t_shs t_buffer src mlv ≠ .wrote out := by
  have h1 : run_main t_shs t_buffer src mlv = .warnNoVersions := by
    unfold run_main
    rw [habs]
  exact ⟨h1, get_versions_absent habs,
    fun out hw => by rw [h1] at hw; cases hw⟩

/-- C8 (amended): when the __versions section (size a positive multiple of
64) extends past the end of the image buffer, decoding hits the bounds
check of a slice read and aborts with a panic: it never returns a table
(no silent truncation, no out-of-range read), but the failure is the
panic abort, not the MalformedTable (None) error value. -/
theorem c8_oob_decode_panics {info : List SectionHeader} {data : List Nat}
    {sh : SectionHeader} (hsh : find_section info "__versions" = some sh)
    (hmul : sh.sh_size % 64 = 0) (hpos : 0 < sh.sh_size)
    (hoob : data.length < sh.sh_offset + sh.sh_size) :
    get_versions info data = .panic ∧
    ∀ t? : Option VersionTable, get_versions info data ≠ .ret t? := by
  have hp : get_versions info data = .panic := by
    rw [get_versions_section hsh, if_neg (by omega)]
    rw [readEntries_oob data (sh.sh_size / 64) sh.sh_offset []
      (by omega) (by omega)]
  exact ⟨hp, fun t? h => by rw [hp] at h; cases h⟩

/-! ### Concrete images for witnesses and counterexamples -/

/-- A 64-byte image holding one version record: crc 1, name "foo". -/
def sampleImage1 : List Nat :=
  [1, 0, 0, 0, 0, 0, 0, 0, 102, 111, 111] ++ List.replicate 53 0

/-- The header of a one-record `__versions` section at offset 0. -/
def sampleSh1 : SectionHeader := ⟨"__versions", 0, 64⟩

/-- The table decoded from sampleImage1. -/
def sampleT1 : VersionTable := [([102, 111, 111], ⟨1, 0⟩)]

/-- The decoded record of sampleImage1. -/
def sampleE1 : Name × SymVersion := ([102, 111, 111], ⟨1, 0⟩)

/-- A source table carrying crc 2 for "foo". -/
def sampleS1 : VersionTable := [([102, 111, 111], ⟨2, 32⟩)]

/-- The header of a two-record `__versions` section at offset 0. -/
def sampleShTwo : SectionHeader := ⟨"__versions", 0, 128⟩

/-- A 128-byte image with records "foo" (crc 1) and "bar" (crc 2). -/
def sampleImageTwo : List Nat :=
  ([1, 0, 0, 0, 0, 0, 0, 0, 102, 111, 111] ++ List.replicate 53 0) ++
  ([2, 0, 0, 0, 0, 0, 0, 0, 98, 97, 114] ++ List.replicate 53 0)

/-- A 128-byte image with two records both named "foo" (crcs 1 and 2). -/
def sampleImageDup : List Nat :=
  ([1, 0, 0, 0, 0, 0, 0, 0, 102, 111, 111] ++ List.replicate 53 0) ++
  ([2, 0, 0, 0, 0, 0, 0, 0, 102, 111, 111] ++ List.replicate 53 0)

/-! ### Witnesses and counterexamples -/

theorem c1_witness :
    ([2, 0, 0, 0, 0, 0, 0, 0] : List Nat).length =
      ([5, 0, 0, 0, 0, 0, 0, 0] : List Nat).length ∧
    (∀ i, (∀ off ∈ patchedOffsets sampleT1 (some sampleS1) none,
        i < off ∨ off + 8 ≤ i) →
      ([2, 0, 0, 0, 0, 0, 0, 0] : List Nat)[i]? =
        ([5, 0, 0, 0, 0, 0, 0, 0] : List Nat)[i]?) ∧
    countDiff [5, 0, 0, 0, 0, 0, 0, 0] [2, 0, 0, 0, 0, 0, 0, 0] ≤
      8 * (patchedOffsets sampleT1 (some sampleS1) none).length :=
  c1_patch_touches_only_checksums (by decide)

theorem c1_counterexample :
    apply_patch sampleT1 [1, 0, 0, 0, 0, 0, 0, 0] (some [([102, 111, 111],
        ⟨1, 32⟩)]) none = .ret [1, 0, 0, 0, 0, 0, 0, 0] ∧
    (patchedOffsets sampleT1 (some [([102, 111, 111], ⟨1, 32⟩)])
      none).length = 1 ∧
    ¬(countDiff [1, 0, 0, 0, 0, 0, 0, 0] [1, 0, 0, 0, 0, 0, 0, 0] =
      8 * (patchedOffsets sampleT1 (some [([102, 111, 111], ⟨1, 32⟩)])
        none).length) := by decide

theorem c2_witness :
    ∃ out, patch_with_source sampleS1 sampleT1 sampleImage1 = .ret out ∧
      ∀ e ∈ sampleT1, (∀ sv, hm_get sampleS1 e.1 = some sv →
          readBytes out e.2.offset 8 = u64_to_le_bytes sv.crc) ∧
        (hm_get sampleS1 e.1 = none →
          readBytes out e.2.offset 8 = readBytes sampleImage1 e.2.offset 8) :=
  @c2_source_merge_copies [sampleSh1] sampleImage1 sampleT1 sampleS1
    (by decide)

theorem c3_witness :
    ∃ j, j < sampleSh1.sh_size / 64 ∧
      sampleE1.2.offset = sampleSh1.sh_offset + 64 * j ∧
      sampleE1.2.offset + 64 ≤ sampleImage1.length ∧
      sampleE1.2.crc = u64_from_le_bytes
        (readBytes sampleImage1 sampleE1.2.offset 8) ∧
      sampleE1.1 = str_from_u8
        (readBytes sampleImage1 (sampleE1.2.offset + 8) 56) ∧
      0 ∉ sampleE1.1 ∧
      (sampleE1.1 = readBytes sampleImage1 (sampleE1.2.offset + 8) 56 ∨
        ∃ rest, readBytes sampleImage1 (sampleE1.2.offset + 8) 56 =
          sampleE1.1 ++ 0 :: rest) :=
  @c3_version_record_decode [sampleSh1] sampleImage1 sampleT1 sampleSh1
    (by decide) (by decide) sampleE1 (by decide)

theorem c4_witness :
    ∃ out, apply_patch [(module_layout, ⟨7, 0⟩)] [9, 9, 9, 9, 9, 9, 9, 9]
        none (some 5) = .ret out ∧
      readBytes out (⟨7, 0⟩ : SymVersion).offset 8 = u64_to_le_bytes 5 :=
  @c4_override_precedence [(module_layout, ⟨7, 0⟩)] [9, 9, 9, 9, 9, 9, 9, 9]
    none 5 ⟨7, 0⟩ (by simp [InBounds]) (by decide)

theorem c5_witness :
    ∃ t, get_versions [sampleShTwo] sampleImageTwo = .ret (some t) ∧
      t.length ≤ sampleShTwo.sh_size / 64 ∧
      (((specEntries sampleImageTwo sampleShTwo.sh_offset
          (sampleShTwo.sh_size / 64)).map Prod.fst).Nodup →
        t.length = sampleShTwo.sh_size / 64) :=
  (@c5_record_count [sampleShTwo] sampleImageTwo sampleShTwo
    (by decide)).1 (by decide) (by decide)

theorem c5_counterexample :
    get_versions [sampleShTwo] sampleImageDup =
      .ret (some [([102, 111, 111], ⟨2, 64⟩)]) ∧
    ([([102, 111, 111], (⟨2, 64⟩ : SymVersion))] : VersionTable).length ≠
      sampleShTwo.sh_size / 64 := by decide

theorem c6_witness :
    (run_main [sampleSh1] sampleImage1 none (some 3) = .panicAbort ∨
      run_main [sampleSh1] sampleImage1 none (some 3) = .exitFailure) ∧
    ∀ out, run_main [sampleSh1] sampleImage1 none (some 3) ≠ .wrote out :=
  @c6_missing_module_layout_aborts [sampleSh1] sampleImage1 none 3 sampleT1
    (by decide) (by decide)

theorem c7_witness :
    run_main [] [] none none = .warnNoVersions ∧
    get_versions [] [] = .ret none ∧
    ∀ out, run_main [] [] none none ≠ .wrote out :=
  @c7_absent_section_success [] [] none none (by decide)

theorem c7_counterexample :
    find_section [] "__versions" = none ∧
    find_section [⟨"__versions", 0, 1⟩] "__versions" =
      some ⟨"__versions", 0, 1⟩ ∧
    (⟨"__versions", 0, 1⟩ : SectionHeader).sh_size % 64 ≠ 0 ∧
    get_versions [] [] = get_versions [⟨"__versions", 0, 1⟩] [] := by decide

theorem c8_witness :
    get_versions [⟨"__versions", 0, 64⟩] [0] = .panic ∧
    ∀ t? : Option VersionTable,
      get_versions [⟨"__versions", 0, 64⟩] [0] ≠ .ret t? :=
  @c8_oob_decode_panics [⟨"__versions", 0, 64⟩] [0] ⟨"__versions", 0, 64⟩
    (by decide) (by decide) (by decide) (by decide)

theorem c8_counterexample :
    get_versions [⟨"__versions", 0, 64⟩] [0] = .panic ∧
    (RustResult.panic : RustResult (Option VersionTable)) ≠ .ret none := by
  decide

theorem c9_witness :
    ∃ t, get_versions [sampleShTwo] sampleImageDup = .ret (some t) ∧
      (∀ e ∈ specEntries sampleImageDup sampleShTwo.sh_offset
          (sampleShTwo.sh_size / 64), (hm_get t e.1).isSome = true) ∧
      ∀ k sv, hm_get t k = some sv →
        (k, sv) ∈ specEntries sampleImageDup sampleShTwo.sh_offset
          (sampleShTwo.sh_size / 64) ∧
        ∀ e ∈ specEntries sampleImageDup sampleShTwo.sh_offset
          (sampleShTwo.sh_size / 64), e.1 = k → e.2.offset ≤ sv.offset :=
  @c9_duplicate_last_wins [sampleShTwo] sampleImageDup sampleShTwo
    (by decide) (by decide) (by decide)

theorem c10_witness :
    patch_with_source sampleS1 [([98], ⟨2, 8⟩), ([97], ⟨1, 0⟩)]
        [0, 0, 0, 0, 0, 0, 0, 0, 0, 0, 0, 0, 0, 0, 0, 0] =
      patch_with_source sampleS1 [([97], ⟨1, 0⟩), ([98], ⟨2, 8⟩)]
        [0, 0, 0, 0, 0, 0, 0, 0, 0, 0, 0, 0, 0, 0, 0, 0] :=
  c10_merge_order_independent (by simp [DisjointRanges])
    [([98], ⟨2, 8⟩), ([97], ⟨1, 0⟩)] (by decide)

theorem c10_counterexample :
    (([97], (⟨1, 0⟩ : SymVersion)) : Name × SymVersion).2.offset ≠
      (([98], (⟨2, 4⟩ : SymVersion)) : Name × SymVersion).2.offset ∧
    List.Perm [(([97], (⟨1, 0⟩ : SymVersion)) : Name × SymVersion),
        ([98], ⟨2, 4⟩)]
      [([98], ⟨2, 4⟩), ([97], ⟨1, 0⟩)] ∧
    patch_with_source [([97], ⟨1, 0⟩), ([98], ⟨2, 4⟩)]
        [([97], ⟨1, 0⟩), ([98], ⟨2, 4⟩)]
        [0, 0, 0, 0, 0, 0, 0, 0, 0, 0, 0, 0] ≠
      patch_with_source [([97], ⟨1, 0⟩), ([98], ⟨2, 4⟩)]
        [([98], ⟨2, 4⟩), ([97], ⟨1, 0⟩)]
        [0, 0, 0, 0, 0, 0, 0, 0, 0, 0, 0, 0] := by decide

end Candycorn
